import Mathlib

/-!
Verification of the 1-D region-of-interest detection pipeline of
`maad/rois/rois_1d.py` (scikit-maad).

The source functions `sinc`, `corresp_onset_offset`, `energy_windowed` and
`find_rois_cwt` are shallowly embedded over `List ℚ` (floating-point samples
idealised as rationals, integer window lengths as `ℕ`).  Fallible code paths
(Python exceptions) are modelled with `Option`/`Except`.  The continuous
wavelet transform `signal.cwt(s_rms, signal.ricker, ...)` is a transcendental
convolution whose output values no claim depends on; the post-CWT part of
`find_rois_cwt` (lines 149-172) is therefore embedded as a function of the
smoothed series `s_cwt`, exactly as the claims quantify ("for every fixed
smoothed series s_cwt", "obtained from the transitions of a single binary
mask").
-/

namespace Rois1d

/-- Integer encoding of a boolean sample, mirroring `astype(int)`. -/
def bti (b : Bool) : ℤ := if b then 1 else 0

/-! ### `numpy` reflection padding

`np.lib.pad(s, (0, k), 'reflect')` extends `s` on the right by `k` samples,
mirroring the samples around the last entry without repeating it, bouncing
back and forth if `k` exceeds `len(s) - 1`; a length-one axis is extended by
repeating its single sample.  Padding an empty axis raises `ValueError`
(handled by the `Option` in `energy_windowed` below). -/

/-- Index into the zig-zag reflection of a length-`n` sequence. -/
def reflectIdx (n i : ℕ) : ℕ :=
  if n ≤ 1 then 0
  else
    let p := 2 * n - 2
    let m := i % p
    if m < n then m else p - m

/-- Right reflection padding by `k` samples, `np.lib.pad(s, (0, k), 'reflect')`. -/
def reflectPad (s : List ℚ) (k : ℕ) : List ℚ :=
  s ++ (List.range k).map (fun j => s.getD (reflectIdx s.length (s.length + j)) 0)

/-! ### `energy_windowed` (rois_1d.py lines 74-102) -/

/-- Number of samples appended by `energy_windowed`: the Python expression
`wl - len(s) % wl` (lines 96).  Note this equals `wl`, not `0`, when `wl`
divides `len(s)`. -/
def padAmount (lenS wl : ℕ) : ℕ := wl - lenS % wl

/-- The padded signal `s_aux` of `energy_windowed` before squaring. -/
def ewPadded (s : List ℚ) (wl : ℕ) : List ℚ :=
  reflectPad s (padAmount s.length wl)

/-- Length of the reduced (per-window) series produced by `energy_windowed`
for an input of length `lenS`. -/
def ewLen (lenS wl : ℕ) : ℕ := (lenS + padAmount lenS wl) / wl

/-- The time stamps `np.arange(0, n) * wl / fs + wl * 0.5 / fs` (line 101). -/
def timeGrid (wl : ℕ) (fs : ℚ) (n : ℕ) : List ℚ :=
  (List.range n).map (fun (k : ℕ) => (k : ℚ) * (wl : ℚ) / fs + (wl : ℚ) * (1/2) / fs)

/-- Embedding of `energy_windowed(s, wl, fs)` (lines 96-102): reflection-pad
the tail, square, reshape into `wl`-sample rows, take row means, and attach
midpoint time stamps.  `none` models the Python exceptions: `len(s) % wl`
raises `ZeroDivisionError` for `wl = 0`, and `np.lib.pad(..., 'reflect')`
raises `ValueError` on an empty input axis. -/
def energy_windowed (s : List ℚ) (wl : ℕ) (fs : ℚ) :
    Option (List ℚ × List ℚ) :=
  if wl = 0 then none
  else if s.length = 0 then none
  else
    let sAux := ewPadded s wl
    let sAux2 := sAux.map (fun x => x ^ 2)
    let m := sAux.length / wl
    let sRms := (List.range m).map (fun k => ((sAux2.drop (k * wl)).take wl).sum / (wl : ℚ))
    some (timeGrid wl fs m, sRms)

/-! ### Mask, transitions and onset/offset extraction (lines 149-151) -/

/-- The binary mask `np.array(s_cwt > th)` (line 149, strict comparison). -/
def maskOf (sCwt : List ℚ) (th : ℚ) : List Bool :=
  sCwt.map (fun x => decide (th < x))

/-- Forward difference `np.diff(segments_bin.astype(int))` of the mask's
integer encoding. -/
def maskDiff (m : List Bool) : List ℤ :=
  (List.range (m.length - 1)).map
    (fun i => bti (m.getD (i + 1) false) - bti (m.getD i false))

/-- Indices `np.where(np.diff(segments_bin.astype(int)) > 0)` of rising
transitions. -/
def upIdx (m : List Bool) : List ℕ :=
  (List.range (m.length - 1)).filter (fun i => decide (0 < (maskDiff m).getD i 0))

/-- Indices `np.where(np.diff(segments_bin.astype(int)) < 0)` of falling
transitions. -/
def downIdx (m : List Bool) : List ℕ :=
  (List.range (m.length - 1)).filter (fun i => decide ((maskDiff m).getD i 0 < 0))

/-- Onset times `t[np.where(diff > 0)] + t[0]` (line 150). -/
def onsetTimes (m : List Bool) (t : List ℚ) : List ℚ :=
  (upIdx m).map (fun i => t.getD i 0 + t.getD 0 0)

/-- Offset times `t[np.where(diff < 0)] + t[0]` (line 151). -/
def offsetTimes (m : List Bool) (t : List ℚ) : List ℚ :=
  (downIdx m).map (fun i => t.getD i 0 + t.getD 0 0)

/-! ### `corresp_onset_offset` (lines 44-72) -/

/-- Embedding of `corresp_onset_offset(onset, offset, tmin, tmax)`
(lines 64-72).  The Python body indexes `onset[0]`, `offset[0]`, `onset[-1]`
and `offset[-1]` unconditionally, so an empty input raises `IndexError`,
modelled by `none`.  Note the second test reads the last element of the
possibly front-extended onset array, exactly as the Python does after
reassigning `onset`. -/
def corresp_onset_offset (onset offset : List ℚ) (tmin tmax : ℚ) :
    Option (List ℚ × List ℚ) :=
  if onset.isEmpty ∨ offset.isEmpty then none
  else
    let onset1 := if offset.getD 0 0 < onset.getD 0 0 then tmin :: onset else onset
    let offset1 :=
      if offset.getLastD 0 < onset1.getLastD 0 then offset ++ [tmax] else offset
    some (onset1, offset1)

/-! ### Output formatting (lines 153-169) -/

/-- Round half to even at integer precision, the rounding `np.round` uses. -/
def roundHalfEven (x : ℚ) : ℤ :=
  let f := ⌊x⌋
  let frac := x - (f : ℚ)
  if frac < 1/2 then f
  else if 1/2 < frac then f + 1
  else if Even f then f else f + 1

/-- Rounding to 5 decimal places, `np.round(·, 5)` (lines 164, 166). -/
def round5 (x : ℚ) : ℚ := (roundHalfEven (x * 100000) : ℚ) / 100000

/-- One row of the result table: `(onset, fmin, offset, fmax)`. -/
structure Roi where
  onset : ℚ
  fmin : ℚ
  offset : ℚ
  fmax : ℚ
  deriving DecidableEq, Repr

/-- Embedding of the post-CWT tail of `find_rois_cwt` (lines 149-169): the
smoothed series `sCwt` is thresholded into a mask, transition times are
extracted against the `energy_windowed` time grid, the empty branch returns
the empty table, and otherwise `corresp_onset_offset` is applied with
`tmin = 0`, `tmax = len(s)/fs` and the rows are formatted with 5-decimal
rounding and the fixed band bounds.  `none` models an uncaught Python
exception (only `corresp_onset_offset`'s `IndexError` could produce one). -/
def find_rois_postcwt (sCwt : List ℚ) (wl : ℕ) (fs : ℚ) (lenS : ℕ)
    (th fmin fmax : ℚ) : Option (List Roi) :=
  let t := timeGrid wl fs sCwt.length
  let m := maskOf sCwt th
  let onset := onsetTimes m t
  let offset := offsetTimes m t
  if onset.isEmpty ∨ offset.isEmpty then some []
  else
    match corresp_onset_offset onset offset 0 ((lenS : ℚ) / fs) with
    | none => none
    | some (onset1, offset1) =>
        some ((List.range onset1.length).map
          (fun i => ⟨round5 (onset1.getD i 0), fmin, round5 (offset1.getD i 0), fmax⟩))

/-- Number of rows of the detection table, when no exception occurs. -/
def numRows (sCwt : List ℚ) (wl : ℕ) (fs : ℚ) (lenS : ℕ)
    (th fmin fmax : ℚ) : ℕ :=
  ((find_rois_postcwt sCwt wl fs lenS th fmin fmax).getD []).length

/-! ### `sinc` (rois_1d.py lines 16-41)

`sinc` performs no validation of its own; it delegates the filter design to
`scipy.signal.kaiserord`, `scipy.signal.firwin` and `scipy.signal.lfilter`.
The exceptions those primitives raise are part of the behaviour of `sinc`
and are embedded here from their sources:

* `kaiserord(ripple, width)` raises `ValueError` when `abs(ripple) < 8`,
  and the expression `(A - 7.95) / 2.285 / (np.pi * width) + 1` raises a
  `ZeroDivisionError` when `width == 0`; otherwise it returns
  `int(ceil(...))` taps.
* `firwin(numtaps, cutoff, ..., nyq)` normalises the cutoffs by the Nyquist
  frequency and raises `ValueError` when a normalised cutoff is `<= 0` or
  `>= 1`, when the cutoffs are not strictly increasing, when an even
  `numtaps` is combined with a passband ending at Nyquist (`pass_nyquist`,
  which for a two-element cutoff equals `pass_zero = not bandpass`), or —
  via `get_window`/`_len_guards` — when `numtaps` is negative.
* `lfilter(taps, 1, s)` raises when the designed kernel is empty
  (`numtaps == 0`).

The kernel coefficient values themselves involve transcendental functions
(`sin`, `i0`) that no claim depends on; the successfully designed filter is
represented symbolically by its design parameters together with the input
signal, which is what the equivalence claim about the dead expression on
line 37 compares.  The constant `np.pi` is passed explicitly as a rational
parameter `pi` (the binary64 value of `np.pi` is `piF64` below); every
theorem about `sinc` either holds for all values of this parameter or is
stated at `piF64`. -/

/-- Exceptions raised during the filter design/application chain of `sinc`. -/
inductive SincError where
  | attenTooSmall
  | zeroWidth
  | invalidCutoff
  | cutoffNotIncreasing
  | evenNumtapsNyquist
  | negativeWindowLength
  | emptyKernel
  deriving DecidableEq, Repr

/-- `scipy.signal.kaiserord(ripple, width)`, keeping only the tap count
(the Kaiser shape parameter `beta` is irrational and unused by any claim). -/
def kaiserord (pi ripple width : ℚ) : Except SincError ℤ :=
  let A := |ripple|
  if A < 8 then .error .attenTooSmall
  else if width = 0 then .error .zeroWidth
  else .ok ⌈(A - 795/100) / (2285/1000) / (pi * width) + 1⌉

/-- Symbolic description of a designed FIR kernel together with the signal
it is applied to: a successful run of `sinc` is determined by these data. -/
structure FirDesign where
  numtaps : ℕ
  cutoffLoN : ℚ
  cutoffHiN : ℚ
  passZero : Bool
  signal : List ℚ
  deriving DecidableEq, Repr

/-- The validation performed by `scipy.signal.firwin(numtaps, (c0, c1),
window=('kaiser', beta), scale=False, nyq, pass_zero)` before it constructs
the kernel, in source order. -/
def firwinCheck (numtaps : ℤ) (c0 c1 nyq : ℚ) (passZero : Bool) (s : List ℚ) :
    Except SincError FirDesign :=
  let c0N := c0 / nyq
  let c1N := c1 / nyq
  if min c0N c1N ≤ 0 ∨ 1 ≤ max c0N c1N then .error .invalidCutoff
  else if c1N - c0N ≤ 0 then .error .cutoffNotIncreasing
  else if passZero ∧ numtaps % 2 = 0 then .error .evenNumtapsNyquist
  else if numtaps < 0 then .error .negativeWindowLength
  else .ok ⟨numtaps.toNat, c0N, c1N, passZero, s⟩

/-- `scipy.signal.lfilter(taps, 1, s)`: fails on an empty kernel, otherwise
the filtered output is represented symbolically by the design itself. -/
def lfilterSym (d : FirDesign) : Except SincError FirDesign :=
  if d.numtaps = 0 then .error .emptyKernel else .ok d

/-- Embedding of `sinc(s, cutoff, fs, atten, transition_bw, bandpass)`
(lines 35-41), including the discarded round-to-odd expression of line 37
(`np.ceil(numtaps-1) // 2 * 2 + 1`, a floor division in Python) as an unused
`let` binding. -/
def sinc (pi : ℚ) (s : List ℚ) (c0 c1 fs atten transition_bw : ℚ)
    (bandpass : Bool) : Except SincError FirDesign :=
  let width := (c1 - c0) * transition_bw
  (kaiserord pi atten (width / (1/2 * fs))).bind fun numtaps =>
    let _typeI : ℤ := Int.fdiv (numtaps - 1) 2 * 2 + 1
    (firwinCheck numtaps c0 c1 (1/2 * fs) (!bandpass) s).bind fun design =>
      lfilterSym design

/-- Variant of `sinc` with the dead expression of line 37 removed. -/
def sincNoTypeI (pi : ℚ) (s : List ℚ) (c0 c1 fs atten transition_bw : ℚ)
    (bandpass : Bool) : Except SincError FirDesign :=
  let width := (c1 - c0) * transition_bw
  (kaiserord pi atten (width / (1/2 * fs))).bind fun numtaps =>
    (firwinCheck numtaps c0 c1 (1/2 * fs) (!bandpass) s).bind fun design =>
      lfilterSym design

/-- The IEEE binary64 value of `np.pi`: `884279719003555 * 2 ^ (-48)`. -/
def piF64 : ℚ := 884279719003555 / 281474976710656

/-- Number of rising transitions strictly below index `x`. -/
def cUp (m : List Bool) (x : ℕ) : ℕ :=
  (upIdx m).countP (fun a => decide (a < x))

/-- Number of falling transitions strictly below index `x`. -/
def cDown (m : List Bool) (x : ℕ) : ℕ :=
  (downIdx m).countP (fun a => decide (a < x))

/-- The time value attached to a transition at reduced-series index `i`:
`t[i] + t[0] = (i + 1) * wl / fs`. -/
def fIdx (wl : ℕ) (fs : ℚ) (i : ℕ) : ℚ := ((i : ℚ) + 1) * (wl : ℚ) / fs

/-- Boolean success test for the filter design chain. -/
def isOkB : Except SincError FirDesign → Bool
  | .ok _ => true
  | .error _ => false


/-! ### Helper lemmas on lists -/

theorem length_reflectPad (s : List ℚ) (k : ℕ) :
    (reflectPad s k).length = s.length + k := by
  simp [reflectPad]

theorem padAmount_le (lenS wl : ℕ) : padAmount lenS wl ≤ wl :=
  Nat.sub_le _ _

theorem padAmount_pos (lenS : ℕ) {wl : ℕ} (h : 0 < wl) : 0 < padAmount lenS wl := by
  have := Nat.mod_lt lenS h
  unfold padAmount
  omega

theorem padded_eq_mul (lenS : ℕ) {wl : ℕ} (h : 0 < wl) :
    lenS + padAmount lenS wl = wl * (lenS / wl) + wl := by
  have h1 : lenS % wl < wl := Nat.mod_lt _ h
  have hdm := Nat.div_add_mod lenS wl
  unfold padAmount
  omega

theorem padded_mod (lenS : ℕ) {wl : ℕ} (h : 0 < wl) :
    (lenS + padAmount lenS wl) % wl = 0 := by
  rw [padded_eq_mul lenS h, ← Nat.mul_succ, Nat.mul_mod_right]

theorem ewLen_mul {wl : ℕ} (lenS : ℕ) (h : 0 < wl) :
    ewLen lenS wl * wl = lenS + padAmount lenS wl := by
  unfold ewLen
  rw [padded_eq_mul lenS h, ← Nat.mul_succ, Nat.mul_comm wl, Nat.mul_div_cancel _ h]

theorem getD_map_range {α : Type} (f : ℕ → α) (d : α) {k m : ℕ} (hk : k < m) :
    ((List.range m).map f).getD k d = f k := by
  have h1 : k < ((List.range m).map f).length := by simpa using hk
  rw [List.getD_eq_getElem _ _ h1]
  simp

theorem getD_map {α β : Type} (f : α → β) (l : List α) (d : α) (d' : β) {j : ℕ}
    (hj : j < l.length) : (l.map f).getD j d' = f (l.getD j d) := by
  have h1 : j < (l.map f).length := by simpa using hj
  rw [List.getD_eq_getElem _ _ h1, List.getD_eq_getElem _ _ hj]
  simp

theorem getLastD_eq_getD {α : Type} (l : List α) (d : α) (h : l ≠ []) :
    l.getLastD d = l.getD (l.length - 1) d := by
  rw [List.getLastD_eq_getLast?, List.getLast?_eq_getElem?]
  have h1 : l.length - 1 < l.length := by
    have := List.length_pos.mpr h
    omega
  rw [List.getD_eq_getElem _ _ h1]
  simp [List.getElem?_eq_getElem h1]

theorem getLastD_cons {α : Type} (a d : α) (l : List α) (h : l ≠ []) :
    (a :: l).getLastD d = l.getLastD d := by
  cases l with
  | nil => exact absurd rfl h
  | cons b t => simp [List.getLastD_eq_getLast?, List.getLast?_cons_cons]

/-! ### Transition-index combinatorics -/

theorem bti_sub_pos {b b' : Bool} : 0 < bti b' - bti b ↔ b = false ∧ b' = true := by
  cases b <;> cases b' <;> simp [bti]

theorem bti_sub_neg {b b' : Bool} : bti b' - bti b < 0 ↔ b = true ∧ b' = false := by
  cases b <;> cases b' <;> simp [bti]

theorem maskDiff_getD {m : List Bool} {i : ℕ} (hi : i < m.length - 1) :
    (maskDiff m).getD i 0 = bti (m.getD (i + 1) false) - bti (m.getD i false) := by
  unfold maskDiff
  exact getD_map_range _ _ hi

theorem mem_upIdx {m : List Bool} {i : ℕ} :
    i ∈ upIdx m ↔
      i + 1 < m.length ∧ m.getD i false = false ∧ m.getD (i + 1) false = true := by
  unfold upIdx
  rw [List.mem_filter, List.mem_range]
  constructor
  · rintro ⟨h1, h2⟩
    have hi : i + 1 < m.length := by omega
    rw [decide_eq_true_eq, maskDiff_getD h1] at h2
    have := bti_sub_pos.mp h2
    exact ⟨hi, this.1, this.2⟩
  · rintro ⟨h1, h2, h3⟩
    have hi : i < m.length - 1 := by omega
    refine ⟨hi, ?_⟩
    rw [decide_eq_true_eq, maskDiff_getD hi]
    exact bti_sub_pos.mpr ⟨h2, h3⟩

theorem mem_downIdx {m : List Bool} {i : ℕ} :
    i ∈ downIdx m ↔
      i + 1 < m.length ∧ m.getD i false = true ∧ m.getD (i + 1) false = false := by
  unfold downIdx
  rw [List.mem_filter, List.mem_range]
  constructor
  · rintro ⟨h1, h2⟩
    have hi : i + 1 < m.length := by omega
    rw [decide_eq_true_eq, maskDiff_getD h1] at h2
    have := bti_sub_neg.mp h2
    exact ⟨hi, this.1, this.2⟩
  · rintro ⟨h1, h2, h3⟩
    have hi : i < m.length - 1 := by omega
    refine ⟨hi, ?_⟩
    rw [decide_eq_true_eq, maskDiff_getD hi]
    exact bti_sub_neg.mpr ⟨h2, h3⟩

theorem pairwise_upIdx (m : List Bool) : (upIdx m).Pairwise (· < ·) :=
  (List.pairwise_lt_range _).filter _

theorem pairwise_downIdx (m : List Bool) : (downIdx m).Pairwise (· < ·) :=
  (List.pairwise_lt_range _).filter _

/-! ### Counting elements of a strictly sorted list below a bound -/

theorem countP_lt_getD {L : List ℕ} (hL : L.Pairwise (· < ·)) :
    ∀ {j : ℕ}, j < L.length →
      L.countP (fun a => decide (a < L.getD j 0)) = j := by
  induction L with
  | nil => intro j hj; simp at hj
  | cons a tl ih =>
    intro j hj
    rcases List.pairwise_cons.mp hL with ⟨ha, htl⟩
    cases j with
    | zero =>
        rw [List.countP_cons]
        have h0 : (a :: tl).getD 0 0 = a := rfl
        rw [h0]
        have hz : tl.countP (fun b => decide (b < a)) = 0 :=
          List.countP_eq_zero.mpr (fun b hb => by
            simp only [decide_eq_true_eq]
            exact Nat.not_lt.mpr (le_of_lt (ha b hb)))
        simp [hz]
    | succ j =>
        have hj' : j < tl.length := by simpa using hj
        have hgd : (a :: tl).getD (j + 1) 0 = tl.getD j 0 := rfl
        rw [hgd, List.countP_cons]
        have hmem : tl.getD j 0 ∈ tl := by
          rw [List.getD_eq_getElem _ _ hj']
          exact List.getElem_mem hj'
        have haj : a < tl.getD j 0 := ha _ hmem
        rw [ih htl hj', if_pos (decide_eq_true haj)]

theorem getD_lt_of_lt_countP {L : List ℕ} (hL : L.Pairwise (· < ·)) {x : ℕ} :
    ∀ {j : ℕ}, j < L.countP (fun a => decide (a < x)) →
      j < L.length ∧ L.getD j 0 < x := by
  induction L with
  | nil => intro j hj; simp at hj
  | cons a tl ih =>
    intro j hj
    rcases List.pairwise_cons.mp hL with ⟨ha, htl⟩
    by_cases hax : a < x
    · rw [List.countP_cons, if_pos (decide_eq_true hax)] at hj
      cases j with
      | zero => exact ⟨by simp, hax⟩
      | succ j =>
          have hj' : j < tl.countP (fun b => decide (b < x)) := by omega
          obtain ⟨h1, h2⟩ := ih htl hj'
          exact ⟨by simpa using h1, h2⟩
    · exfalso
      have hz : (a :: tl).countP (fun b => decide (b < x)) = 0 :=
        List.countP_eq_zero.mpr (by
          intro b hb
          simp only [decide_eq_true_eq]
          rcases List.mem_cons.mp hb with rfl | hb'
          · exact hax
          · intro hbx
            exact hax (lt_trans (ha b hb') hbx))
      omega

theorem countP_lt_succ {L : List ℕ} (hL : L.Pairwise (· < ·)) (x : ℕ) :
    L.countP (fun a => decide (a < x + 1)) =
      L.countP (fun a => decide (a < x)) + (if x ∈ L then 1 else 0) := by
  induction L with
  | nil => simp
  | cons a tl ih =>
    rcases List.pairwise_cons.mp hL with ⟨ha, htl⟩
    rw [List.countP_cons, List.countP_cons, ih htl]
    by_cases hmem : x ∈ tl
    · have hax : a < x := ha x hmem
      have h1 : a < x + 1 := by omega
      have h2 : x ∈ a :: tl := List.mem_cons_of_mem a hmem
      rw [if_pos hmem, if_pos (decide_eq_true h1), if_pos (decide_eq_true hax), if_pos h2]
    · by_cases hax : a = x
      · subst hax
        have h1 : a < a + 1 := Nat.lt_succ_self a
        have h2 : ¬ (decide (a < a) = true) := by simp
        have h3 : a ∈ a :: tl := List.mem_cons_self a tl
        rw [if_neg hmem, if_pos (decide_eq_true h1), if_neg h2, if_pos h3]
      · have h4 : x ∉ a :: tl := by
          rw [List.mem_cons]
          rintro (rfl | hc)
          · exact hax rfl
          · exact hmem hc
        rw [if_neg hmem, if_neg h4]
        have h5 : (a < x + 1) ↔ (a < x) := by
          constructor
          · intro hc
            rcases Nat.lt_succ_iff_lt_or_eq.mp hc with hlt | heq
            · exact hlt
            · exact absurd heq hax
          · intro hc; omega
        by_cases h6 : a < x
        · rw [if_pos (decide_eq_true (h5.mpr h6)), if_pos (decide_eq_true h6)]
        · have h7 : ¬ (decide (a < x + 1) = true) := by
            simp only [decide_eq_true_eq]
            exact fun hc => h6 (h5.mp hc)
          have h8 : ¬ (decide (a < x) = true) := by
            simp only [decide_eq_true_eq]
            exact h6
          rw [if_neg h7, if_neg h8]

/-! ### The transition-count invariant of a binary mask -/

theorem cUp_succ (m : List Bool) (x : ℕ) :
    cUp m (x + 1) = cUp m x + (if x ∈ upIdx m then 1 else 0) :=
  countP_lt_succ (pairwise_upIdx m) x

theorem cDown_succ (m : List Bool) (x : ℕ) :
    cDown m (x + 1) = cDown m x + (if x ∈ downIdx m then 1 else 0) :=
  countP_lt_succ (pairwise_downIdx m) x

/-- The state of the mask at index `i` is the initial state plus the signed
number of transitions strictly below `i`. -/
theorem mask_count_inv (m : List Bool) :
    ∀ i, i < m.length →
      (bti (m.getD i false) : ℤ) =
        bti (m.getD 0 false) + (cUp m i : ℤ) - (cDown m i : ℤ) := by
  intro i
  induction i with
  | zero =>
      intro _
      have h1 : cUp m 0 = 0 := List.countP_eq_zero.mpr (by intro a _; simp)
      have h2 : cDown m 0 = 0 := List.countP_eq_zero.mpr (by intro a _; simp)
      rw [h1, h2]
      push_cast
      ring
  | succ i ih =>
      intro hi
      have hi' : i < m.length := by omega
      have hinv := ih hi'
      rw [cUp_succ, cDown_succ]
      rcases hbi : m.getD i false with _ | _ <;>
        rcases hbi' : m.getD (i + 1) false with _ | _
      · have hu : i ∉ upIdx m := fun hc => by
          rw [mem_upIdx] at hc
          rw [hbi'] at hc
          simp at hc
        have hd : i ∉ downIdx m := fun hc => by
          rw [mem_downIdx] at hc
          rw [hbi] at hc
          simp at hc
        rw [if_neg hu, if_neg hd]
        rw [hbi] at hinv
        push_cast
        omega
      · have hu : i ∈ upIdx m := mem_upIdx.mpr ⟨hi, hbi, hbi'⟩
        have hd : i ∉ downIdx m := fun hc => by
          rw [mem_downIdx] at hc
          rw [hbi] at hc
          simp at hc
        rw [if_pos hu, if_neg hd]
        rw [hbi] at hinv
        simp only [bti] at hinv ⊢
        push_cast
        push_cast at hinv
        omega
      · have hu : i ∉ upIdx m := fun hc => by
          rw [mem_upIdx] at hc
          rw [hbi] at hc
          simp at hc
        have hd : i ∈ downIdx m := mem_downIdx.mpr ⟨hi, hbi, hbi'⟩
        rw [if_neg hu, if_pos hd]
        rw [hbi] at hinv
        simp only [bti] at hinv ⊢
        push_cast
        push_cast at hinv
        omega
      · have hu : i ∉ upIdx m := fun hc => by
          rw [mem_upIdx] at hc
          rw [hbi] at hc
          simp at hc
        have hd : i ∉ downIdx m := fun hc => by
          rw [mem_downIdx] at hc
          rw [hbi'] at hc
          simp at hc
        rw [if_neg hu, if_neg hd]
        rw [hbi] at hinv
        push_cast
        omega

theorem bti_false : bti false = 0 := rfl

theorem bti_true : bti true = 1 := rfl

theorem getD_mem {α : Type} (l : List α) (d : α) {j : ℕ} (hj : j < l.length) :
    l.getD j d ∈ l := by
  rw [List.getD_eq_getElem _ _ hj]
  exact List.getElem_mem hj

theorem cUp_at_upIdx {m : List Bool} {j : ℕ} (hj : j < (upIdx m).length) :
    cUp m ((upIdx m).getD j 0) = j :=
  countP_lt_getD (pairwise_upIdx m) hj

theorem cDown_at_downIdx {m : List Bool} {j : ℕ} (hj : j < (downIdx m).length) :
    cDown m ((downIdx m).getD j 0) = j :=
  countP_lt_getD (pairwise_downIdx m) hj

theorem cDown_at_upIdx {m : List Bool} {j : ℕ} (hj : j < (upIdx m).length) :
    (cDown m ((upIdx m).getD j 0) : ℤ) = j + bti (m.getD 0 false) := by
  have humem : (upIdx m).getD j 0 ∈ upIdx m := getD_mem _ _ hj
  obtain ⟨h1, h2, _⟩ := mem_upIdx.mp humem
  have hinv := mask_count_inv m ((upIdx m).getD j 0) (by omega)
  rw [h2, bti_false] at hinv
  have hcu := cUp_at_upIdx hj
  omega

theorem cUp_at_downIdx {m : List Bool} {j : ℕ} (hj : j < (downIdx m).length) :
    (cUp m ((downIdx m).getD j 0) : ℤ) = j + 1 - bti (m.getD 0 false) := by
  have hdmem : (downIdx m).getD j 0 ∈ downIdx m := getD_mem _ _ hj
  obtain ⟨h1, h2, _⟩ := mem_downIdx.mp hdmem
  have hinv := mask_count_inv m ((downIdx m).getD j 0) (by omega)
  rw [h2, bti_true] at hinv
  have hcd := cDown_at_downIdx hj
  omega

theorem upDown_total {m : List Bool} (h2 : 2 ≤ m.length) :
    ((upIdx m).length : ℤ) - (downIdx m).length =
      bti (m.getD (m.length - 1) false) - bti (m.getD 0 false) := by
  have hinv := mask_count_inv m (m.length - 1) (by omega)
  have hU : cUp m (m.length - 1) = (upIdx m).length :=
    List.countP_eq_length.mpr (by
      intro a ha
      have := (mem_upIdx.mp ha).1
      simp only [decide_eq_true_eq]
      omega)
  have hD : cDown m (m.length - 1) = (downIdx m).length :=
    List.countP_eq_length.mpr (by
      intro a ha
      have := (mem_downIdx.mp ha).1
      simp only [decide_eq_true_eq]
      omega)
  rw [hU, hD] at hinv
  omega

/-! ### The time grid and its index map -/

theorem timeGrid_getD {wl : ℕ} {fs : ℚ} {n k : ℕ} (hk : k < n) :
    (timeGrid wl fs n).getD k 0 = (k : ℚ) * wl / fs + (wl : ℚ) * (1/2) / fs := by
  unfold timeGrid
  exact getD_map_range _ _ hk

theorem fIdx_lt {wl : ℕ} {fs : ℚ} (hwl : 0 < wl) (hfs : 0 < fs) {a b : ℕ}
    (h : a < b) : fIdx wl fs a < fIdx wl fs b := by
  unfold fIdx
  rw [div_lt_div_iff_of_pos_right hfs]
  have hwl' : (0 : ℚ) < wl := by exact_mod_cast hwl
  have hab : ((a : ℚ) + 1) < (b : ℚ) + 1 := by
    have : (a : ℚ) < b := by exact_mod_cast h
    linarith
  exact mul_lt_mul_of_pos_right hab hwl'

theorem fIdx_pos {wl : ℕ} {fs : ℚ} (hwl : 0 < wl) (hfs : 0 < fs) (a : ℕ) :
    0 < fIdx wl fs a := by
  unfold fIdx
  apply div_pos _ hfs
  have hwl' : (0 : ℚ) < wl := by exact_mod_cast hwl
  have : (0 : ℚ) ≤ a := Nat.cast_nonneg a
  nlinarith

theorem fIdx_le_tmax {wl lenS : ℕ} {fs : ℚ} (hwl : 0 < wl) (hfs : 0 < fs)
    {n u : ℕ} (hn : n = ewLen lenS wl) (hu : u + 1 < n) :
    fIdx wl fs u ≤ (lenS : ℚ) / fs := by
  have hmul : n * wl = lenS + padAmount lenS wl := by
    rw [hn]; exact ewLen_mul lenS hwl
  have hple := padAmount_le lenS wl
  have hnat : (u + 1) * wl ≤ lenS := by
    have h1 : u + 1 ≤ n - 1 := by omega
    have h2 : (u + 1) * wl ≤ (n - 1) * wl := Nat.mul_le_mul_right _ h1
    have h3 : (n - 1) * wl = n * wl - 1 * wl := Nat.sub_mul n 1 wl
    omega
  unfold fIdx
  rw [div_le_div_iff_of_pos_right hfs]
  have hcast : (((u + 1) * wl : ℕ) : ℚ) ≤ (lenS : ℚ) := by exact_mod_cast hnat
  push_cast at hcast
  linarith

theorem onsetTimes_eq (m : List Bool) (wl : ℕ) (fs : ℚ) (hn : 0 < m.length) :
    onsetTimes m (timeGrid wl fs m.length) = (upIdx m).map (fIdx wl fs) := by
  unfold onsetTimes
  apply List.map_congr_left
  intro u hu
  have h1 := (mem_upIdx.mp hu).1
  rw [timeGrid_getD (by omega : u < m.length), timeGrid_getD hn]
  unfold fIdx
  push_cast
  ring

theorem offsetTimes_eq (m : List Bool) (wl : ℕ) (fs : ℚ) (hn : 0 < m.length) :
    offsetTimes m (timeGrid wl fs m.length) = (downIdx m).map (fIdx wl fs) := by
  unfold offsetTimes
  apply List.map_congr_left
  intro u hu
  have h1 := (mem_downIdx.mp hu).1
  rw [timeGrid_getD (by omega : u < m.length), timeGrid_getD hn]
  unfold fIdx
  push_cast
  ring

/-! ### Access lemmas for the reconciled lists -/

theorem getD_append_left {α : Type} (l l' : List α) (d : α) {i : ℕ}
    (h : i < l.length) : (l ++ l').getD i d = l.getD i d := by
  have h1 : i < (l ++ l').length := by
    rw [List.length_append]; omega
  rw [List.getD_eq_getElem _ _ h1, List.getD_eq_getElem _ _ h, List.getElem_append_left h]

theorem getD_append_singleton {α : Type} (l : List α) (x d : α) :
    (l ++ [x]).getD l.length d = x := by
  have h1 : l.length < (l ++ [x]).length := by
    rw [List.length_append]; simp
  rw [List.getD_eq_getElem _ _ h1]
  simp

/-- Characterisation of `corresp_onset_offset` on non-empty inputs: the
synthetic onset `tmin` is inserted exactly when the first onset exceeds the
first offset, and the synthetic offset `tmax` is appended exactly when the
last onset (of the original onset sequence) exceeds the last offset. -/
theorem corresp_eq (onset offset : List ℚ) (tmin tmax : ℚ)
    (h1 : onset ≠ []) (h2 : offset ≠ []) :
    corresp_onset_offset onset offset tmin tmax =
      some ((if offset.getD 0 0 < onset.getD 0 0 then tmin :: onset else onset),
            (if offset.getLastD 0 < onset.getLastD 0 then offset ++ [tmax] else offset)) := by
  unfold corresp_onset_offset
  have hg : ¬(onset.isEmpty ∨ offset.isEmpty) := by
    simp [List.isEmpty_iff, h1, h2]
  rw [if_neg hg]
  by_cases hc : offset.getD 0 0 < onset.getD 0 0
  · simp only [if_pos hc]
    rw [getLastD_cons tmin 0 onset h1]
  · simp only [if_neg hc]

theorem maskOf_length (sCwt : List ℚ) (th : ℚ) :
    (maskOf sCwt th).length = sCwt.length := by
  simp [maskOf]

theorem maskOf_getD (sCwt : List ℚ) (th : ℚ) {i : ℕ} (hi : i < sCwt.length) :
    (maskOf sCwt th).getD i false = decide (th < sCwt.getD i 0) := by
  unfold maskOf
  exact getD_map _ _ 0 _ hi

/-! ## Claim theorems -/

/-- C9: the standalone expression `np.ceil(numtaps-1) // 2 * 2 + 1` on line 37
of `sinc` is dead code: its value is never bound or used, so `sinc` computes
exactly the same result as the variant `sincNoTypeI` with the expression
removed, for every input. -/
theorem c9_typeI_expression_dead (pi : ℚ) (s : List ℚ)
    (c0 c1 fs atten transition_bw : ℚ) (bandpass : Bool) :
    sinc pi s c0 c1 fs atten transition_bw bandpass =
      sincNoTypeI pi s c0 c1 fs atten transition_bw bandpass := rfl

/-- C1 counterexample: the claim asserts that every input whose transition
bandwidth `(c1 - c0) * transition_bw` is `≤ 0` makes `sinc` fail at filter
design time.  This is false: with a valid band `(0.1, 0.9)` at `fs = 2` and
a negative transition fraction `-20`, the normalised width is `-16`, the
Kaiser formula yields `numtaps = 1`, every `firwin` check passes, and the
design proceeds silently to a degenerate one-tap filter. -/
theorem c1_counterexample :
    ((9/10 - 1/10 : ℚ) * (-20) ≤ 0) ∧
      sinc piF64 [1] (1/10) (9/10) 2 80 (-20) true =
        .ok ⟨1, 1/10, 9/10, false, [1]⟩ := by
  constructor
  · norm_num
  · have hk : kaiserord piF64 80 ((9/10 - 1/10) * (-20) / (1/2 * 2)) = .ok 1 := by
      norm_num [kaiserord, piF64, Int.ceil_eq_iff]
    simp only [sinc]
    rw [hk]
    simp only [Except.bind]
    norm_num [firwinCheck, lfilterSym]

/-- C1 amended: `sinc` contains no validation of its own and no
`InvalidBandError` exists in the code; however, whenever `c1 ≤ c0` (and
`fs > 0`) the design chain does fail at filter design time with one of the
exceptions of its scipy primitives (`kaiserord`'s attenuation check or
zero-width division, or `firwin`'s cutoff-range and strictly-increasing
checks), for every value of the `pi` parameter; the failure is not
guaranteed for a merely non-positive transition bandwidth (see the
counterexample). -/
theorem c1_high_le_low_fails (pi : ℚ) (s : List ℚ)
    (c0 c1 fs atten transition_bw : ℚ) (bandpass : Bool)
    (hfs : 0 < fs) (hle : c1 ≤ c0) :
    isOkB (sinc pi s c0 c1 fs atten transition_bw bandpass) = false := by
  have hnyq : (0 : ℚ) < 1/2 * fs := by linarith
  have hni : c1 / (1/2 * fs) - c0 / (1/2 * fs) ≤ 0 := by
    have := (div_le_div_iff_of_pos_right hnyq).mpr hle
    linarith
  simp only [sinc, kaiserord, firwinCheck]
  by_cases h8 : |atten| < 8
  · rw [if_pos h8]
    rfl
  · rw [if_neg h8]
    by_cases hw : (c1 - c0) * transition_bw / (1/2 * fs) = 0
    · rw [if_pos hw]
      rfl
    · rw [if_neg hw]
      simp only [Except.bind]
      by_cases hcut : min (c0 / (1/2 * fs)) (c1 / (1/2 * fs)) ≤ 0 ∨
          1 ≤ max (c0 / (1/2 * fs)) (c1 / (1/2 * fs))
      · rw [if_pos hcut]
        rfl
      · rw [if_neg hcut, if_pos hni]
        rfl

/-- C1 amended, witness at a concrete malformed band (`0.9 ≤ 0.1` reversed
cutoffs, `fs = 2`). -/
theorem c1_high_le_low_fails_witness :
    (0 : ℚ) < 2 ∧ (1/10 : ℚ) ≤ 9/10 ∧
      isOkB (sinc piF64 [1] (9/10) (1/10) 2 80 (8/10) true) = false :=
  ⟨by norm_num, by norm_num,
    c1_high_le_low_fails piF64 [1] (9/10) (1/10) 2 80 (8/10) true
      (by norm_num) (by norm_num)⟩

/-- C2 counterexample: for the input `[1,2,3,4]` with `wl = 2` — a length
that is an exact multiple of the window — the pad amount computed by
`energy_windowed` (`wl - len(s) % wl`) is `2 = wl`, not `0`, and the padded
signal `[1,2,3,4,3,2]` strictly extends the input instead of equalling it. -/
theorem c2_counterexample :
    (4 % 2 = 0) ∧ padAmount 4 2 = 2 ∧ padAmount 4 2 ≠ 0 ∧
      ewPadded [1, 2, 3, 4] 2 = [1, 2, 3, 4, 3, 2] ∧
      ewPadded [1, 2, 3, 4] 2 ≠ [1, 2, 3, 4] := by
  refine ⟨rfl, rfl, by decide, by decide, by decide⟩

/-- C2 amended: the tail-padded signal of `energy_windowed` always has
length an exact multiple of `wl`; but when `wl` already divides `len(s)` the
pad amount is `wl` (a full extra reflected window), not `0`, so the padded
signal has length `len(s) + wl` and never equals the input. -/
theorem c2_amended (s : List ℚ) (wl : ℕ) (hwl : 0 < wl) :
    (ewPadded s wl).length % wl = 0 ∧
      (s.length % wl = 0 →
        padAmount s.length wl = wl ∧
        (ewPadded s wl).length = s.length + wl ∧
        ewPadded s wl ≠ s) := by
  constructor
  · rw [ewPadded, length_reflectPad]
    exact padded_mod s.length hwl
  · intro hdvd
    have hpad : padAmount s.length wl = wl := by
      unfold padAmount
      omega
    refine ⟨hpad, ?_, ?_⟩
    · rw [ewPadded, length_reflectPad, hpad]
    · intro hc
      have := congrArg List.length hc
      rw [ewPadded, length_reflectPad, hpad] at this
      omega

/-- C2 amended, witness at `s = [1,2,3,4]`, `wl = 2`. -/
theorem c2_amended_witness :
    0 < 2 ∧
      ((ewPadded [1, 2, 3, 4] 2).length % 2 = 0 ∧
        (([1, 2, 3, 4] : List ℚ).length % 2 = 0 →
          padAmount ([1, 2, 3, 4] : List ℚ).length 2 = 2 ∧
          (ewPadded [1, 2, 3, 4] 2).length = ([1, 2, 3, 4] : List ℚ).length + 2 ∧
          ewPadded [1, 2, 3, 4] 2 ≠ [1, 2, 3, 4])) :=
  ⟨by decide, c2_amended [1, 2, 3, 4] 2 (by decide)⟩

/-- C3 counterexample: raising the threshold can increase the number of
detected onset/offset pairs.  For the smoothed series `[5, 1, 5]` (with
`wl = 2`, `fs = 1`, signal length 4), threshold `0` gives an all-true mask
with no transitions — zero rows — while the larger threshold `2` splits the
series into two active runs and yields two rows. -/
theorem c3_counterexample :
    (0 : ℚ) ≤ 2 ∧
      numRows [5, 1, 5] 2 1 4 0 2000 8000 < numRows [5, 1, 5] 2 1 4 2 2000 8000 := by
  refine ⟨by norm_num, ?_⟩
  have h0 : numRows [5, 1, 5] 2 1 4 0 2000 8000 = 0 := by
    norm_num [numRows, find_rois_postcwt, onsetTimes, offsetTimes, maskOf, timeGrid,
      upIdx, downIdx, maskDiff, bti, List.range_succ]
  have h2 : numRows [5, 1, 5] 2 1 4 2 2000 8000 = 2 := by
    norm_num [numRows, find_rois_postcwt, onsetTimes, offsetTimes, maskOf, timeGrid,
      upIdx, downIdx, maskDiff, bti, corresp_onset_offset, List.range_succ]
  omega

/-- C3 amended: raising the threshold shrinks the binary activity mask
pointwise (every sample active at the higher threshold is active at the
lower one), but the number of extracted onset/offset pairs is not monotone
in the threshold — it can grow when an active run splits, as the
counterexample shows. -/
theorem c3_amended (sCwt : List ℚ) (th1 th2 : ℚ) (h : th1 ≤ th2) (i : ℕ)
    (hi : (maskOf sCwt th2).getD i false = true) :
    (maskOf sCwt th1).getD i false = true := by
  by_cases hlen : i < sCwt.length
  · rw [maskOf_getD _ _ hlen] at hi ⊢
    rw [decide_eq_true_eq] at hi ⊢
    linarith
  · rw [List.getD_eq_getElem?_getD, List.getElem?_eq_none] at hi
    · simp at hi
    · rw [maskOf_length]
      omega

/-- C3 amended, witness: sample `5` is active at threshold `1` and at the
smaller threshold `0`. -/
theorem c3_amended_witness :
    (0 : ℚ) ≤ 1 ∧ (maskOf [5] 1).getD 0 false = true ∧
      (maskOf [5] 0).getD 0 false = true :=
  ⟨by norm_num, by decide, c3_amended [5] 0 1 (by norm_num) 0 (by decide)⟩

/-- C5: on non-empty inputs, `corresp_onset_offset` inserts the synthetic
onset `tmin` at the front exactly when the first onset exceeds the first
offset, and appends the synthetic offset `tmax` exactly when the last onset
(of the input onset sequence) exceeds the last offset; otherwise the
sequences are returned unchanged.  At the call site of `find_rois_cwt`,
`tmin = 0` and `tmax = len(s)/fs`. -/
theorem c5_boundary_synthesis (onset offset : List ℚ) (tmin tmax : ℚ)
    (h1 : onset ≠ []) (h2 : offset ≠ []) :
    corresp_onset_offset onset offset tmin tmax =
      some ((if offset.getD 0 0 < onset.getD 0 0 then tmin :: onset else onset),
            (if offset.getLastD 0 < onset.getLastD 0 then offset ++ [tmax] else offset)) :=
  corresp_eq onset offset tmin tmax h1 h2

/-- C5 witness: with `onset = [4]`, `offset = [2]`, `tmin = 0`, `tmax = 7`,
both boundary conditions hold, so `0` is inserted and `7` is appended. -/
theorem c5_boundary_synthesis_witness :
    ([4] : List ℚ) ≠ [] ∧ ([2] : List ℚ) ≠ [] ∧
      corresp_onset_offset [4] [2] 0 7 = some ([0, 4], [2, 7]) := by
  refine ⟨by decide, by decide, ?_⟩
  have h := c5_boundary_synthesis [4] [2] 0 7 (by decide) (by decide)
  rw [h]
  norm_num

/-- C6: whenever the extracted onset sequence or the extracted offset
sequence is empty, the post-CWT stage of `find_rois_cwt` returns the
explicitly empty table as a normal value — it cannot reach the only
exception-raising branch. -/
theorem c6_empty_detection (sCwt : List ℚ) (wl : ℕ) (fs : ℚ) (lenS : ℕ)
    (th fmin fmax : ℚ)
    (h : onsetTimes (maskOf sCwt th) (timeGrid wl fs sCwt.length) = [] ∨
         offsetTimes (maskOf sCwt th) (timeGrid wl fs sCwt.length) = []) :
    find_rois_postcwt sCwt wl fs lenS th fmin fmax = some [] := by
  simp only [find_rois_postcwt]
  rw [if_pos]
  rcases h with h | h
  · exact Or.inl (List.isEmpty_iff.mpr h)
  · exact Or.inr (List.isEmpty_iff.mpr h)

/-- C6 witness: a series never exceeding the threshold has no onsets, and
the result is the empty table. -/
theorem c6_empty_detection_witness :
    (onsetTimes (maskOf [0, 0, 0] 1) (timeGrid 2 1 ([0, 0, 0] : List ℚ).length) = [] ∨
      offsetTimes (maskOf [0, 0, 0] 1) (timeGrid 2 1 ([0, 0, 0] : List ℚ).length) = []) ∧
    find_rois_postcwt [0, 0, 0] 2 1 4 1 2000 8000 = some [] := by
  have hOr : onsetTimes (maskOf [0, 0, 0] 1) (timeGrid 2 1 ([0, 0, 0] : List ℚ).length) = [] ∨
      offsetTimes (maskOf [0, 0, 0] 1) (timeGrid 2 1 ([0, 0, 0] : List ℚ).length) = [] :=
    Or.inl (by decide)
  exact ⟨hOr, c6_empty_detection [0, 0, 0] 2 1 4 1 2000 8000 hOr⟩

/-- C10: `corresp_onset_offset` indexes its arguments without an emptiness
check (on empty input it raises, modelled by `none`), but the post-CWT stage
only calls it on the branch where both sequences are non-empty, so the whole
stage never raises: its result is always defined, for every input. -/
theorem c10_guard_protects_corresp (sCwt : List ℚ) (wl : ℕ) (fs : ℚ)
    (lenS : ℕ) (th fmin fmax : ℚ) :
    (find_rois_postcwt sCwt wl fs lenS th fmin fmax).isSome = true := by
  simp only [find_rois_postcwt]
  by_cases hg : (onsetTimes (maskOf sCwt th) (timeGrid wl fs sCwt.length)).isEmpty = true ∨
      (offsetTimes (maskOf sCwt th) (timeGrid wl fs sCwt.length)).isEmpty = true
  · rw [if_pos hg]
    rfl
  · rw [if_neg hg]
    push_neg at hg
    have h1 : onsetTimes (maskOf sCwt th) (timeGrid wl fs sCwt.length) ≠ [] := by
      intro hc
      exact hg.1 (List.isEmpty_iff.mpr hc)
    have h2 : offsetTimes (maskOf sCwt th) (timeGrid wl fs sCwt.length) ≠ [] := by
      intro hc
      exact hg.2 (List.isEmpty_iff.mpr hc)
    rw [corresp_eq _ _ _ _ h1 h2]
    rfl

/-- C7: `energy_windowed` produces exactly one output value per
non-overlapping `wl`-sample window of the padded signal (the padded length
is `ewLen · wl`), the value for window `k` being the mean of the squared
samples of that window, with time stamp `k * wl / fs + 0.5 * wl / fs`. -/
theorem c7_energy_windowed (s : List ℚ) (wl : ℕ) (fs : ℚ) (hwl : 0 < wl)
    (hs : s ≠ []) :
    ewLen s.length wl * wl = (ewPadded s wl).length ∧
    energy_windowed s wl fs =
      some ((List.range (ewLen s.length wl)).map
              (fun (k : ℕ) => (k : ℚ) * wl / fs + (1/2 : ℚ) * wl / fs),
            (List.range (ewLen s.length wl)).map
              (fun (k : ℕ) =>
                ((((ewPadded s wl).drop (k * wl)).take wl).map (fun x => x ^ 2)).sum
                  / (wl : ℚ))) := by
  have hlen : (ewPadded s wl).length = s.length + padAmount s.length wl := by
    rw [ewPadded, length_reflectPad]
  have hm : (ewPadded s wl).length / wl = ewLen s.length wl := by
    rw [hlen]; rfl
  constructor
  · exact (ewLen_mul s.length hwl).trans hlen.symm
  · simp only [energy_windowed]
    rw [if_neg (Nat.pos_iff_ne_zero.mp hwl), if_neg (by
      have := List.length_pos.mpr hs
      omega : ¬ s.length = 0)]
    rw [hm]
    refine congrArg some (Prod.ext ?_ ?_)
    · unfold timeGrid
      apply List.map_congr_left
      intro k _
      ring
    · apply List.map_congr_left
      intro k _
      rw [← List.map_drop, ← List.map_take]

/-- C7 witness at `s = [1,2,3,4]`, `wl = 2`, `fs = 1`: padded signal
`[1,2,3,4,3,2]`, three windows, energies `[5/2, 25/2, 13/2]`, midpoint time
stamps `[1, 3, 5]`. -/
theorem c7_energy_windowed_witness :
    0 < 2 ∧ ([1, 2, 3, 4] : List ℚ) ≠ [] ∧
      energy_windowed [1, 2, 3, 4] 2 1 = some ([1, 3, 5], [5/2, 25/2, 13/2]) := by
  refine ⟨by decide, by decide, ?_⟩
  have h := (c7_energy_windowed [1, 2, 3, 4] 2 1 (by decide) (by decide)).2
  rw [h]
  norm_num [ewPadded, reflectPad, reflectIdx, padAmount, ewLen, List.range_succ]

/-- C8: the binary mask is the strict comparison `s_cwt > th`; the onset
times are exactly the values `t[i] + t[0]` at indices where the forward
difference of the mask's integer encoding is `+1` — equivalently where the
mask goes false-to-true — and the offset times are those where it is `-1`
(true-to-false). -/
theorem c8_mask_and_edges (sCwt t : List ℚ) (th : ℚ) :
    onsetTimes (maskOf sCwt th) t =
      ((List.range (sCwt.length - 1)).filter
          (fun i => decide (¬ th < sCwt.getD i 0 ∧ th < sCwt.getD (i + 1) 0))).map
        (fun i => t.getD i 0 + t.getD 0 0) ∧
    offsetTimes (maskOf sCwt th) t =
      ((List.range (sCwt.length - 1)).filter
          (fun i => decide (th < sCwt.getD i 0 ∧ ¬ th < sCwt.getD (i + 1) 0))).map
        (fun i => t.getD i 0 + t.getD 0 0) := by
  constructor
  · unfold onsetTimes upIdx
    rw [maskOf_length]
    congr 1
    apply List.filter_congr
    intro i hi
    rw [List.mem_range] at hi
    have hi1 : i + 1 < sCwt.length := by omega
    have hi0 : i < sCwt.length := by omega
    have hdm : i < (maskOf sCwt th).length - 1 := by
      rw [maskOf_length]; omega
    rw [decide_eq_decide, maskDiff_getD hdm, bti_sub_pos,
      maskOf_getD _ _ hi0, maskOf_getD _ _ hi1]
    rw [decide_eq_false_iff_not, decide_eq_true_eq]
  · unfold offsetTimes downIdx
    rw [maskOf_length]
    congr 1
    apply List.filter_congr
    intro i hi
    rw [List.mem_range] at hi
    have hi1 : i + 1 < sCwt.length := by omega
    have hi0 : i < sCwt.length := by omega
    have hdm : i < (maskOf sCwt th).length - 1 := by
      rw [maskOf_length]; omega
    rw [decide_eq_decide, maskDiff_getD hdm, bti_sub_neg,
      maskOf_getD _ _ hi0, maskOf_getD _ _ hi1]
    rw [decide_eq_true_eq, decide_eq_false_iff_not]



theorem mask_pairing (m : List Bool) (wl lenS : ℕ) (fs : ℚ)
    (hwl : 0 < wl) (hfs : 0 < fs) (hlen : m.length = ewLen lenS wl)
    (hU : upIdx m ≠ []) (hD : downIdx m ≠ []) :
    ∀ onF offF : List ℚ,
      corresp_onset_offset ((upIdx m).map (fIdx wl fs)) ((downIdx m).map (fIdx wl fs))
          0 ((lenS : ℚ) / fs) = some (onF, offF) →
      onF.length = offF.length ∧ 0 < onF.length ∧
      (∀ i, i + 1 < onF.length → onF.getD i 0 < offF.getD i 0) ∧
      (∀ i, i < onF.length → onF.getD i 0 ≤ offF.getD i 0) ∧
      (∀ i, i + 1 < onF.length → offF.getD i 0 ≤ onF.getD (i + 1) 0) := by
  intro onF offF hc
  have hUp : (upIdx m).Pairwise (· < ·) := pairwise_upIdx m
  have hDp : (downIdx m).Pairwise (· < ·) := pairwise_downIdx m
  have hUpos : 0 < (upIdx m).length := List.length_pos.mpr hU
  have hDpos : 0 < (downIdx m).length := List.length_pos.mpr hD
  obtain ⟨u0, hu0⟩ := List.exists_mem_of_ne_nil _ hU
  have hn2 : 2 ≤ m.length := by
    have := (mem_upIdx.mp hu0).1
    omega
  set f := fIdx wl fs with hf
  have hMono : ∀ a b : ℕ, a < b → f a < f b := fun a b h => fIdx_lt hwl hfs h
  have hPos : ∀ a : ℕ, 0 < f a := fun a => fIdx_pos hwl hfs a
  have hTm : ∀ j, j < (upIdx m).length → f ((upIdx m).getD j 0) ≤ (lenS : ℚ) / fs := by
    intro j hj
    have hmem := getD_mem (upIdx m) 0 hj
    have h1 := (mem_upIdx.mp hmem).1
    exact fIdx_le_tmax hwl hfs hlen (by omega)
  have hUfne : (upIdx m).map f ≠ [] := by
    intro hcon
    exact hU (List.map_eq_nil_iff.mp hcon)
  have hDfne : (downIdx m).map f ≠ [] := by
    intro hcon
    exact hD (List.map_eq_nil_iff.mp hcon)
  rw [corresp_eq _ _ _ _ hUfne hDfne] at hc
  have hpair := (Option.some.inj hc).symm
  have honF := congrArg Prod.fst hpair
  have hoffF := congrArg Prod.snd hpair
  dsimp at honF hoffF
  have hUget : ∀ j, j < (upIdx m).length →
      ((upIdx m).map f).getD j 0 = f ((upIdx m).getD j 0) :=
    fun j hj => getD_map f _ 0 0 hj
  have hDget : ∀ j, j < (downIdx m).length →
      ((downIdx m).map f).getD j 0 = f ((downIdx m).getD j 0) :=
    fun j hj => getD_map f _ 0 0 hj
  have hUlast : ((upIdx m).map f).getLastD 0 =
      f ((upIdx m).getD ((upIdx m).length - 1) 0) := by
    rw [getLastD_eq_getD _ _ hUfne, List.length_map]
    exact hUget _ (by omega)
  have hDlast : ((downIdx m).map f).getLastD 0 =
      f ((downIdx m).getD ((downIdx m).length - 1) 0) := by
    rw [getLastD_eq_getD _ _ hDfne, List.length_map]
    exact hDget _ (by omega)
  have hc1 : (((downIdx m).map f).getD 0 0 < ((upIdx m).map f).getD 0 0) ↔
      m.getD 0 false = true := by
    rw [hUget 0 hUpos, hDget 0 hDpos]
    constructor
    · intro hlt
      by_contra hm0
      have hm0' : m.getD 0 false = false := by
        cases hb : m.getD 0 false
        · rfl
        · exact absurd hb hm0
      have hcu := cUp_at_downIdx (m := m) (j := 0) hDpos
      rw [hm0', bti_false] at hcu
      have hcu' : 0 < cUp m ((downIdx m).getD 0 0) := by omega
      obtain ⟨_, hlt2⟩ := getD_lt_of_lt_countP hUp hcu'
      exact absurd hlt (lt_asymm (hMono _ _ hlt2))
    · intro hm0
      have hcd := cDown_at_upIdx (m := m) (j := 0) hUpos
      rw [hm0, bti_true] at hcd
      have hcd' : 0 < cDown m ((upIdx m).getD 0 0) := by omega
      obtain ⟨_, hlt2⟩ := getD_lt_of_lt_countP hDp hcd'
      exact hMono _ _ hlt2
  have htot := upDown_total hn2
  have hc2 : (((downIdx m).map f).getLastD 0 < ((upIdx m).map f).getLastD 0) ↔
      m.getD (m.length - 1) false = true := by
    rw [hUlast, hDlast]
    constructor
    · intro hlt
      by_contra hml
      have hml' : m.getD (m.length - 1) false = false := by
        cases hb : m.getD (m.length - 1) false
        · rfl
        · exact absurd hb hml
      rw [hml', bti_false] at htot
      have hb0 : bti (m.getD 0 false) = 0 ∨ bti (m.getD 0 false) = 1 := by
        cases m.getD 0 false <;> simp [bti]
      have hcu := cUp_at_downIdx (m := m) (j := (downIdx m).length - 1) (by omega)
      have hup : (upIdx m).length - 1 < cUp m ((downIdx m).getD ((downIdx m).length - 1) 0) := by
        omega
      obtain ⟨_, hlt2⟩ := getD_lt_of_lt_countP hUp hup
      exact absurd hlt (lt_asymm (hMono _ _ hlt2))
    · intro hml
      rw [hml, bti_true] at htot
      have hb0 : bti (m.getD 0 false) = 0 ∨ bti (m.getD 0 false) = 1 := by
        cases m.getD 0 false <;> simp [bti]
      have hcd := cDown_at_upIdx (m := m) (j := (upIdx m).length - 1) (by omega)
      have hdn : (downIdx m).length - 1 < cDown m ((upIdx m).getD ((upIdx m).length - 1) 0) := by
        omega
      obtain ⟨_, hlt2⟩ := getD_lt_of_lt_countP hDp hdn
      exact hMono _ _ hlt2
  rw [if_congr hc1 rfl rfl] at honF
  rw [if_congr hc2 rfl rfl] at hoffF
  have hA0 : ∀ j, j < (downIdx m).length →
      (cUp m ((downIdx m).getD j 0) : ℤ) = j + 1 - bti (m.getD 0 false) :=
    fun j hj => cUp_at_downIdx hj
  have hB0 : ∀ j, j < (upIdx m).length →
      (cDown m ((upIdx m).getD j 0) : ℤ) = j + bti (m.getD 0 false) :=
    fun j hj => cDown_at_upIdx hj
  rcases hm0 : m.getD 0 false with _ | _ <;>
    rcases hml : m.getD (m.length - 1) false with _ | _
  · -- m0 = false, mlast = false : no insert, no append, lU = lD
    rw [hm0] at honF htot hA0 hB0
    rw [hml] at hoffF htot
    rw [bti_false] at htot hA0 hB0
    simp only [Bool.false_eq_true, if_false] at honF hoffF
    subst honF hoffF
    have hlUD : (upIdx m).length = (downIdx m).length := by omega
    have hApair : ∀ i, i < (upIdx m).length →
        f ((upIdx m).getD i 0) < f ((downIdx m).getD i 0) := by
      intro i hi
      have hiD : i < (downIdx m).length := by omega
      have hcu := hA0 i hiD
      have hlt' : i < cUp m ((downIdx m).getD i 0) := by omega
      obtain ⟨_, hlt⟩ := getD_lt_of_lt_countP hUp hlt'
      exact hMono _ _ hlt
    have hGap : ∀ i, i + 1 < (upIdx m).length →
        f ((downIdx m).getD i 0) < f ((upIdx m).getD (i + 1) 0) := by
      intro i hi
      have hcd := hB0 (i + 1) (by omega)
      have hlt' : i < cDown m ((upIdx m).getD (i + 1) 0) := by omega
      obtain ⟨_, hlt⟩ := getD_lt_of_lt_countP hDp hlt'
      exact hMono _ _ hlt
    refine ⟨by simp [hlUD], by simpa using hUpos, ?_, ?_, ?_⟩
    · intro i hi
      rw [List.length_map] at hi
      rw [hUget i (by omega), hDget i (by omega)]
      exact hApair i (by omega)
    · intro i hi
      rw [List.length_map] at hi
      rw [hUget i (by omega), hDget i (by omega)]
      exact le_of_lt (hApair i (by omega))
    · intro i hi
      rw [List.length_map] at hi
      rw [hDget i (by omega), hUget (i + 1) (by omega)]
      exact le_of_lt (hGap i (by omega))
  · -- m0 = false, mlast = true : append tmax, lU = lD + 1
    rw [hm0] at honF htot hA0 hB0
    rw [hml] at hoffF htot
    rw [bti_false] at htot hA0 hB0
    rw [bti_true] at htot
    simp only [Bool.false_eq_true, if_false, if_pos] at honF hoffF
    subst honF hoffF
    have hlUD : (upIdx m).length = (downIdx m).length + 1 := by omega
    have hApair : ∀ i, i < (downIdx m).length →
        f ((upIdx m).getD i 0) < f ((downIdx m).getD i 0) := by
      intro i hi
      have hcu := hA0 i hi
      have hlt' : i < cUp m ((downIdx m).getD i 0) := by omega
      obtain ⟨_, hlt⟩ := getD_lt_of_lt_countP hUp hlt'
      exact hMono _ _ hlt
    have hGap : ∀ i, i + 1 < (upIdx m).length →
        f ((downIdx m).getD i 0) < f ((upIdx m).getD (i + 1) 0) := by
      intro i hi
      have hcd := hB0 (i + 1) (by omega)
      have hlt' : i < cDown m ((upIdx m).getD (i + 1) 0) := by omega
      obtain ⟨_, hlt⟩ := getD_lt_of_lt_countP hDp hlt'
      exact hMono _ _ hlt
    have hStrict : ∀ i, i + 1 < (upIdx m).length →
        (List.map f (upIdx m)).getD i 0 <
          (List.map f (downIdx m) ++ [(lenS : ℚ) / fs]).getD i 0 := by
      intro i hi
      rw [hUget i (by omega),
        getD_append_left _ _ _ (by rw [List.length_map]; omega),
        hDget i (by omega)]
      exact hApair i (by omega)
    refine ⟨by simp [hlUD], by simpa using hUpos, ?_, ?_, ?_⟩
    · intro i hi
      rw [List.length_map] at hi
      exact hStrict i (by omega)
    · intro i hi
      rw [List.length_map] at hi
      by_cases hi' : i + 1 < (upIdx m).length
      · exact le_of_lt (hStrict i hi')
      · have hieq2 : i = (List.map f (downIdx m)).length := by
          rw [List.length_map]; omega
        rw [hUget i (by omega)]
        have hr : (List.map f (downIdx m) ++ [(lenS : ℚ) / fs]).getD i 0 =
            (lenS : ℚ) / fs := by
          rw [hieq2, getD_append_singleton]
        rw [hr]
        exact hTm i (by omega)
    · intro i hi
      rw [List.length_map] at hi
      rw [getD_append_left _ _ _ (by rw [List.length_map]; omega),
        hDget i (by omega), hUget (i + 1) (by omega)]
      exact le_of_lt (hGap i (by omega))
  · -- m0 = true, mlast = false : insert 0, lD = lU + 1
    rw [hm0] at honF htot hA0 hB0
    rw [hml] at hoffF htot
    rw [bti_true] at htot hA0 hB0
    rw [bti_false] at htot
    simp only [Bool.false_eq_true, if_false, if_pos] at honF hoffF
    subst honF hoffF
    have hlUD : (downIdx m).length = (upIdx m).length + 1 := by omega
    have hApair : ∀ i, i < (upIdx m).length →
        f ((downIdx m).getD i 0) < f ((upIdx m).getD i 0) := by
      intro i hi
      have hcd := hB0 i hi
      have hlt' : i < cDown m ((upIdx m).getD i 0) := by omega
      obtain ⟨_, hlt⟩ := getD_lt_of_lt_countP hDp hlt'
      exact hMono _ _ hlt
    have hGap : ∀ j, j + 1 < (downIdx m).length →
        f ((upIdx m).getD j 0) < f ((downIdx m).getD (j + 1) 0) := by
      intro j hj
      have hcu := hA0 (j + 1) (by omega)
      have hlt' : j < cUp m ((downIdx m).getD (j + 1) 0) := by omega
      obtain ⟨_, hlt⟩ := getD_lt_of_lt_countP hUp hlt'
      exact hMono _ _ hlt
    have hStrict : ∀ i, i < (upIdx m).length + 1 →
        ((0 : ℚ) :: List.map f (upIdx m)).getD i 0 <
          (List.map f (downIdx m)).getD i 0 := by
      intro i hi
      cases i with
      | zero =>
          show (0 : ℚ) < (List.map f (downIdx m)).getD 0 0
          rw [hDget 0 (by omega)]
          exact hPos _
      | succ j =>
          show (List.map f (upIdx m)).getD j 0 < (List.map f (downIdx m)).getD (j + 1) 0
          rw [hUget j (by omega), hDget (j + 1) (by omega)]
          exact hGap j (by omega)
    refine ⟨by simp [hlUD], by simp, ?_, ?_, ?_⟩
    · intro i hi
      simp only [List.length_cons, List.length_map] at hi
      exact hStrict i (by omega)
    · intro i hi
      simp only [List.length_cons, List.length_map] at hi
      exact le_of_lt (hStrict i (by omega))
    · intro i hi
      simp only [List.length_cons, List.length_map] at hi
      show (List.map f (downIdx m)).getD i 0 ≤
        ((0 : ℚ) :: List.map f (upIdx m)).getD (i + 1) 0
      have hstep : ((0 : ℚ) :: List.map f (upIdx m)).getD (i + 1) 0 =
          (List.map f (upIdx m)).getD i 0 := rfl
      rw [hstep, hDget i (by omega), hUget i (by omega)]
      exact le_of_lt (hApair i (by omega))
  · -- m0 = true, mlast = true : insert 0 and append tmax, lU = lD
    rw [hm0] at honF htot hA0 hB0
    rw [hml] at hoffF htot
    rw [bti_true] at htot hA0 hB0
    simp only [eq_self_iff_true, if_true] at honF hoffF
    subst honF hoffF
    have hlUD : (upIdx m).length = (downIdx m).length := by omega
    have hApair : ∀ i, i < (upIdx m).length →
        f ((downIdx m).getD i 0) < f ((upIdx m).getD i 0) := by
      intro i hi
      have hcd := hB0 i hi
      have hlt' : i < cDown m ((upIdx m).getD i 0) := by omega
      obtain ⟨_, hlt⟩ := getD_lt_of_lt_countP hDp hlt'
      exact hMono _ _ hlt
    have hGap : ∀ j, j + 1 < (downIdx m).length →
        f ((upIdx m).getD j 0) < f ((downIdx m).getD (j + 1) 0) := by
      intro j hj
      have hcu := hA0 (j + 1) (by omega)
      have hlt' : j < cUp m ((downIdx m).getD (j + 1) 0) := by omega
      obtain ⟨_, hlt⟩ := getD_lt_of_lt_countP hUp hlt'
      exact hMono _ _ hlt
    have hStrict : ∀ i, i + 1 < (upIdx m).length + 1 →
        ((0 : ℚ) :: List.map f (upIdx m)).getD i 0 <
          (List.map f (downIdx m) ++ [(lenS : ℚ) / fs]).getD i 0 := by
      intro i hi
      cases i with
      | zero =>
          show (0 : ℚ) < (List.map f (downIdx m) ++ [(lenS : ℚ) / fs]).getD 0 0
          rw [getD_append_left _ _ _ (by rw [List.length_map]; omega),
            hDget 0 (by omega)]
          exact hPos _
      | succ j =>
          show (List.map f (upIdx m)).getD j 0 <
            (List.map f (downIdx m) ++ [(lenS : ℚ) / fs]).getD (j + 1) 0
          rw [getD_append_left _ _ _ (by rw [List.length_map]; omega),
            hUget j (by omega), hDget (j + 1) (by omega)]
          exact hGap j (by omega)
    refine ⟨by simp [hlUD], by simp, ?_, ?_, ?_⟩
    · intro i hi
      simp only [List.length_cons, List.length_map] at hi
      exact hStrict i (by omega)
    · intro i hi
      simp only [List.length_cons, List.length_map] at hi
      by_cases hi' : i + 1 < (upIdx m).length + 1
      · exact le_of_lt (hStrict i hi')
      · have hieq : i = (upIdx m).length := by omega
        have hstep : ((0 : ℚ) :: List.map f (upIdx m)).getD i 0 =
            (List.map f (upIdx m)).getD (i - 1) 0 := by
          rw [hieq]
          have : (upIdx m).length = ((upIdx m).length - 1) + 1 := by omega
          rw [this]
          rfl
        have hieq2 : i = (List.map f (downIdx m)).length := by
          rw [List.length_map]; omega
        have hr : (List.map f (downIdx m) ++ [(lenS : ℚ) / fs]).getD i 0 =
            (lenS : ℚ) / fs := by
          rw [hieq2, getD_append_singleton]
        rw [hstep, hr, hUget (i - 1) (by omega)]
        exact hTm (i - 1) (by omega)
    · intro i hi
      simp only [List.length_cons, List.length_map] at hi
      show (List.map f (downIdx m) ++ [(lenS : ℚ) / fs]).getD i 0 ≤
        ((0 : ℚ) :: List.map f (upIdx m)).getD (i + 1) 0
      have hstep : ((0 : ℚ) :: List.map f (upIdx m)).getD (i + 1) 0 =
          (List.map f (upIdx m)).getD i 0 := rfl
      rw [hstep, getD_append_left _ _ _ (by rw [List.length_map]; omega),
        hDget i (by omega), hUget i (by omega)]
      exact le_of_lt (hApair i (by omega))


/-- C4 counterexample: the claim asserts `onset[i] < offset[i]` strictly for
every pair after reconciliation.  For the smoothed series `[5, 1, 5]` with
threshold `2` (mask true-false-true), `wl = 2`, `fs = 1` and a signal of
length `4` (which `wl` divides, so the energy series has an extra padded
window), the reconciled pairs are `(0, 2)` and `(4, 4)`: the appended
synthetic offset `tmax = 4` equals the last onset, violating strictness. -/
theorem c4_counterexample :
    ([5, 1, 5] : List ℚ).length = ewLen 4 2 ∧
    corresp_onset_offset
        (onsetTimes (maskOf [5, 1, 5] 2) (timeGrid 2 1 ([5, 1, 5] : List ℚ).length))
        (offsetTimes (maskOf [5, 1, 5] 2) (timeGrid 2 1 ([5, 1, 5] : List ℚ).length))
        0 ((4 : ℚ) / 1) = some ([0, 4], [2, 4]) ∧
      ¬ (([0, 4] : List ℚ).getD 1 0 < ([2, 4] : List ℚ).getD 1 0) := by
  refine ⟨by decide, ?_, by norm_num⟩
  norm_num [corresp_onset_offset, onsetTimes, offsetTimes, maskOf, timeGrid,
    upIdx, downIdx, maskDiff, bti, List.range_succ]

/-- C4 amended: for every pair of non-empty onset/offset sequences obtained
from the transitions of a binary mask over the pipeline's time grid, after
`corresp_onset_offset` (with the call-site `tmin = 0`,
`tmax = lenS / fs`) the two sequences have equal length, the described
intervals are ordered and disjoint (`offset[i] ≤ onset[i+1]`), and
`onset[i] < offset[i]` holds strictly for every pair except possibly the
last, where only `onset[i] ≤ offset[i]` is guaranteed (equality occurs
exactly in the counterexample's boundary situation). -/
theorem c4_amended (sCwt : List ℚ) (wl lenS : ℕ) (fs th : ℚ)
    (hwl : 0 < wl) (hfs : 0 < fs) (hn : sCwt.length = ewLen lenS wl)
    (hU : onsetTimes (maskOf sCwt th) (timeGrid wl fs sCwt.length) ≠ [])
    (hD : offsetTimes (maskOf sCwt th) (timeGrid wl fs sCwt.length) ≠ [])
    (onF offF : List ℚ)
    (hc : corresp_onset_offset
        (onsetTimes (maskOf sCwt th) (timeGrid wl fs sCwt.length))
        (offsetTimes (maskOf sCwt th) (timeGrid wl fs sCwt.length))
        0 ((lenS : ℚ) / fs) = some (onF, offF)) :
    onF.length = offF.length ∧ 0 < onF.length ∧
    (∀ i, i + 1 < onF.length → onF.getD i 0 < offF.getD i 0) ∧
    (∀ i, i < onF.length → onF.getD i 0 ≤ offF.getD i 0) ∧
    (∀ i, i + 1 < onF.length → offF.getD i 0 ≤ onF.getD (i + 1) 0) := by
  set m := maskOf sCwt th with hm
  have hml : m.length = sCwt.length := maskOf_length sCwt th
  have hUne : upIdx m ≠ [] := by
    intro hcon
    apply hU
    unfold onsetTimes
    rw [hcon]
    rfl
  have hDne : downIdx m ≠ [] := by
    intro hcon
    apply hD
    unfold offsetTimes
    rw [hcon]
    rfl
  obtain ⟨u0, hu0⟩ := List.exists_mem_of_ne_nil _ hUne
  have h0 : 0 < m.length := by
    have := (mem_upIdx.mp hu0).1
    omega
  have hrw1 := onsetTimes_eq m wl fs h0
  have hrw2 := offsetTimes_eq m wl fs h0
  rw [hml] at hrw1 hrw2
  rw [hrw1, hrw2] at hc
  exact mask_pairing m wl lenS fs hwl hfs (hml.trans hn) hUne hDne onF offF hc

/-- C4 amended, witness: for the series `[0, 5, 0]` with threshold `1`
(`wl = 2`, `fs = 1`, signal length `4`), reconciliation yields the single
well-ordered pair `(2, 4)`. -/
theorem c4_amended_witness :
    ([2] : List ℚ).length = ([4] : List ℚ).length ∧
      ([2] : List ℚ).getD 0 0 ≤ ([4] : List ℚ).getD 0 0 := by
  have h := c4_amended [0, 5, 0] 2 4 1 1 (by decide) (by norm_num) (by decide)
    (by norm_num [onsetTimes, maskOf, timeGrid, upIdx, downIdx, maskDiff, bti,
      List.range_succ])
    (by norm_num [offsetTimes, maskOf, timeGrid, upIdx, downIdx, maskDiff, bti,
      List.range_succ])
    [2] [4]
    (by norm_num [corresp_onset_offset, onsetTimes, offsetTimes, maskOf, timeGrid,
      upIdx, downIdx, maskDiff, bti, List.range_succ])
  exact ⟨h.1, h.2.2.2.1 0 (by norm_num)⟩

end Rois1d
